import Mathlib

/-!
# Verification of `game_agent.py` (time-bounded adversarial game-tree search)

Shallow embedding of the single source file `src/game_agent.py` and proofs of
the frozen claims about it.

Modelling choices (each justified against the source):

* **Game states** are consumed only through a narrow interface
  (`get_legal_moves`, `forecast_move`, evaluation), so the embedding is
  parametric in the state type `S` and bundles that interface (plus the
  per-turn timer data) in `SearchCtx`.
* **Scores** are Python floats, which include `float("-inf")` / `float("inf")`
  (the search itself uses both as initial bounds).  They are modelled as
  `V := WithBot (WithTop ℚ)`: `⊥` is `-inf`, `⊤` ("`(⊤ : WithTop ℚ)` lifted")
  is `+inf`, and finite scores are rationals.  All arithmetic the search
  performs on scores is only `min` / `max` / comparison, which `ℚ` models
  exactly.
* **The time-left oracle** `time_left` is a zero-argument callable whose
  successive calls return successive values; it is modelled as a stream
  `ℕ → ℚ` indexed by a poll counter that every embedded function threads
  through.  Raising `SearchTimeout` is modelled by the `Except` monad; the
  counter in a returned `.ok` tells exactly how many polls happened, and since
  every recursive entry into the search polls the oracle, the counter also
  witnesses how many nodes were entered.
* **Exceptions**: `PyExc` has a `searchTimeout` constructor (class
  `SearchTimeout` of the source) and an `other` constructor standing for every
  Python exception that is not a `SearchTimeout`; the source's
  `except SearchTimeout:` handlers match on the constructor.
* **Depth** is modelled as `ℕ`.  The source takes a Python `int`, but its only
  tests on it are `depth <= 0` (the terminal test) and the recursive
  `depth - 1`; every non-positive depth therefore behaves exactly like `0`,
  which is what `ℕ` with truncated subtraction gives.  (`IsolationPlayer`'s
  constructor, which merely stores the configured depth, keeps `ℤ`.)
-/

/-- A move: a pair of integer board coordinates.  `(-1, -1)` is the sentinel
"no legal move available". -/
abbrev Move : Type := ℤ × ℤ

/-- Score values: Python floats as used by the search — rationals extended
with `-inf` (`⊥`) and `+inf`. -/
abbrev V : Type := WithBot (WithTop ℚ)

/-- Embed a finite (rational) score into `V`. -/
def V.fin (q : ℚ) : V := ((q : WithTop ℚ) : V)

/-- The `+inf` element of `V` (Python `float("inf")`). -/
def V.inf : V := ((⊤ : WithTop ℚ) : V)

/-- Python exceptions: the distinguished `SearchTimeout` of `game_agent.py`,
and `other t` standing for any exception of a different class. -/
inductive PyExc where
  | searchTimeout : PyExc
  | other : ℕ → PyExc
deriving DecidableEq

deriving instance DecidableEq for Except

/-- Result of a fragment of search code: either an uncaught exception, or a
value together with the advanced poll counter of the time-left oracle. -/
abbrev Res (α : Type) : Type := Except PyExc (α × ℕ)

/-- The interface a search consumes, plus the per-call data an
`IsolationPlayer` carries during `get_move`:

* `get_legal_moves s`  — `game.get_legal_moves()` (moves of the player to act);
* `forecast_move s m`  — `game.forecast_move(move)`;
* `score s`            — `self.score(game, self)`: the configured evaluation
  of state `s` for the *searching* player (the `self` argument is fixed by the
  partial application);
* `time_left k`        — value returned by the `k`-th call of the
  `time_left` oracle installed by `get_move`;
* `TIMER_THRESHOLD`    — `self.TIMER_THRESHOLD`. -/
structure SearchCtx (S : Type) where
  get_legal_moves : S → List Move
  forecast_move : S → Move → S
  score : S → V
  time_left : ℕ → ℚ
  TIMER_THRESHOLD : ℚ

variable {S : Type}

/-- `if self.time_left() < self.TIMER_THRESHOLD: raise SearchTimeout()` —
one poll of the oracle; on success the poll counter advances. -/
def checkTimer (c : SearchCtx S) (n : ℕ) : Except PyExc ℕ :=
  if c.time_left n < c.TIMER_THRESHOLD then .error .searchTimeout else .ok (n + 1)

/-- The inner `terminal_test(game, depth)` of `MinimaxPlayer.minimax`
(lines 196–205).  `AlphaBetaPlayer.alphabeta` (lines 346–355) contains a
textually identical inner definition, shared here.  It polls the oracle
first, then reports terminality: `depth <= 0` (on `ℕ`: `depth = 0`) or no
legal moves for the active player. -/
def terminal_test (c : SearchCtx S) (depth : ℕ) (s : S) (n : ℕ) :
    Except PyExc (Bool × ℕ) :=
  match checkTimer c n with
  | .error e => .error e
  | .ok n1 =>
    if depth = 0 then .ok (true, n1) else .ok ((c.get_legal_moves s).isEmpty, n1)

/-- The `for move in legal_moves: v = min(v, max_value(...))` loop of the
source's `min_value` (lines 220–223), abstracted over the child evaluation
`eval` (which in use is `max_value` at `depth - 1` on the forecast state).
An exception from a child aborts the loop. -/
def mmMinLoop (eval : Move → ℕ → Res V) : List Move → V → ℕ → Res V
  | [], v, n => .ok (v, n)
  | mv :: ms, v, n =>
    match eval mv n with
    | .error e => .error e
    | .ok (w, n1) => mmMinLoop eval ms (min v w) n1

/-- The `for move in legal_moves: v = max(v, min_value(...))` loop of the
source's `max_value` (lines 238–241). -/
def mmMaxLoop (eval : Move → ℕ → Res V) : List Move → V → ℕ → Res V
  | [], v, n => .ok (v, n)
  | mv :: ms, v, n =>
    match eval mv n with
    | .error e => .error e
    | .ok (w, n1) => mmMaxLoop eval ms (max v w) n1

mutual

/-- `min_value(game, depth)` inside `MinimaxPlayer.minimax` (lines 207–223):
terminal test (which polls the oracle), then the evaluation of the state for
the searching player if terminal, otherwise the minimum over all children of
`max_value` at `depth - 1`, starting from `v = float("inf")`.  The source
tests terminality once; here depth `0` is split off first so that each inner
match is total (at depth `0` the test, when it does not raise, is always
`true`, and both of its success patterns return the score as the source
does). -/
def mm_min_value (c : SearchCtx S) (depth : ℕ) (s : S) (n : ℕ) : Res V :=
  match depth with
  | 0 =>
    -- at depth 0 `terminal_test` (when it does not raise) always reports
    -- `true`, so its two success branches coincide on the score
    match terminal_test c 0 s n with
    | .error e => .error e
    | .ok (_, n1) => .ok (c.score s, n1)
  | d + 1 =>
    match terminal_test c (d + 1) s n with
    | .error e => .error e
    | .ok (true, n1) => .ok (c.score s, n1)
    | .ok (false, n1) =>
      mmMinLoop (fun mv k => mm_max_value c d (c.forecast_move s mv) k)
        (c.get_legal_moves s) V.inf n1

/-- `max_value(game, depth)` inside `MinimaxPlayer.minimax` (lines 225–241):
dual of `mm_min_value`, maximum over children of `min_value` at `depth - 1`,
starting from `v = float("-inf")`. -/
def mm_max_value (c : SearchCtx S) (depth : ℕ) (s : S) (n : ℕ) : Res V :=
  match depth with
  | 0 =>
    match terminal_test c 0 s n with
    | .error e => .error e
    | .ok (_, n1) => .ok (c.score s, n1)
  | d + 1 =>
    match terminal_test c (d + 1) s n with
    | .error e => .error e
    | .ok (true, n1) => .ok (c.score s, n1)
    | .ok (false, n1) =>
      mmMaxLoop (fun mv k => mm_min_value c d (c.forecast_move s mv) k)
        (c.get_legal_moves s) ⊥ n1

end

/-- The root loop of `MinimaxPlayer.minimax` (lines 259–263): evaluate each
legal move, adopt it if its value is *strictly* greater than the best score so
far (`if v > best_score`). -/
def mmRootLoop (eval : Move → ℕ → Res V) :
    List Move → Move → V → ℕ → Res Move
  | [], best, _, n => .ok (best, n)
  | mv :: ms, best, bs, n =>
    match eval mv n with
    | .error e => .error e
    | .ok (v, n1) =>
      if bs < v then mmRootLoop eval ms mv v n1 else mmRootLoop eval ms best bs n1

/-- `MinimaxPlayer.minimax(game, depth)` (lines 170–263): entry timeout check
(line 193), then `best_move, best_score = (-1, -1), float("-inf")`; sentinel
return if there are no legal moves (line 257), otherwise the root loop over
`min_value(forecast(move), depth - 1)`. -/
def MinimaxPlayer.minimax (c : SearchCtx S) (depth : ℕ) (s : S) (n : ℕ) :
    Res Move :=
  match checkTimer c n with
  | .error e => .error e
  | .ok n1 =>
    if (c.get_legal_moves s).isEmpty then .ok ((-1, -1), n1)
    else
      mmRootLoop (fun mv k => mm_min_value c (depth - 1) (c.forecast_move s mv) k)
        (c.get_legal_moves s) (-1, -1) ⊥ n1

/-- The `try: ... except SearchTimeout: pass; return best_move` boundary of
`get_move` (lines 159–168): a completed search returns its move, a
`SearchTimeout` is absorbed and replaced by `bestMove`, and every other
exception class propagates. -/
def handleSearchTimeout (bestMove : Move) (r : Res Move) : Except PyExc Move :=
  match r with
  | .ok (m, _) => .ok m
  | .error .searchTimeout => .ok bestMove
  | .error e => .error e

/-- `MinimaxPlayer.get_move(game, time_left)` (lines 131–168): installs the
oracle (so the poll counter starts at `0`), runs one fixed-depth `minimax`,
and absorbs exactly `SearchTimeout` into the sentinel `best_move = (-1, -1)`. -/
def MinimaxPlayer.get_move (c : SearchCtx S) (search_depth : ℕ) (s : S) :
    Except PyExc Move :=
  handleSearchTimeout (-1, -1) (MinimaxPlayer.minimax c search_depth s 0)

/-- The `for move in ...` loop of the source's alpha-beta `min_value`
(lines 368–373), abstracted over the child evaluation (which receives the
current `beta`): take the running minimum, return it at once if it is `≤ α`
(the pruning cut), otherwise tighten `beta` downward and continue. -/
def abMinLoop (eval : Move → V → ℕ → Res V) (α : V) :
    List Move → V → V → ℕ → Res V
  | [], v, _, n => .ok (v, n)
  | mv :: ms, v, β, n =>
    match eval mv β n with
    | .error e => .error e
    | .ok (w, n1) =>
      let v1 := min v w
      if v1 ≤ α then .ok (v1, n1)
      else abMinLoop eval α ms v1 (min β v1) n1

/-- The loop of the source's alpha-beta `max_value` (lines 385–390): dual of
`abMinLoop`, cutting when the running maximum is `≥ β` and tightening `alpha`
upward. -/
def abMaxLoop (eval : Move → V → ℕ → Res V) (β : V) :
    List Move → V → V → ℕ → Res V
  | [], v, _, n => .ok (v, n)
  | mv :: ms, v, α, n =>
    match eval mv α n with
    | .error e => .error e
    | .ok (w, n1) =>
      let v1 := max v w
      if β ≤ v1 then .ok (v1, n1)
      else abMaxLoop eval β ms v1 (max α v1) n1

mutual

/-- `min_value(game, depth, alpha, beta)` inside `AlphaBetaPlayer.alphabeta`
(lines 357–373), structured as `mm_min_value`. -/
def ab_min_value (c : SearchCtx S) (depth : ℕ) (α β : V) (s : S) (n : ℕ) :
    Res V :=
  match depth with
  | 0 =>
    match terminal_test c 0 s n with
    | .error e => .error e
    | .ok (_, n1) => .ok (c.score s, n1)
  | d + 1 =>
    match terminal_test c (d + 1) s n with
    | .error e => .error e
    | .ok (true, n1) => .ok (c.score s, n1)
    | .ok (false, n1) =>
      abMinLoop (fun mv b k => ab_max_value c d α b (c.forecast_move s mv) k) α
        (c.get_legal_moves s) V.inf β n1

/-- `max_value(game, depth, alpha, beta)` inside `AlphaBetaPlayer.alphabeta`
(lines 375–390): dual of `ab_min_value`. -/
def ab_max_value (c : SearchCtx S) (depth : ℕ) (α β : V) (s : S) (n : ℕ) :
    Res V :=
  match depth with
  | 0 =>
    match terminal_test c 0 s n with
    | .error e => .error e
    | .ok (_, n1) => .ok (c.score s, n1)
  | d + 1 =>
    match terminal_test c (d + 1) s n with
    | .error e => .error e
    | .ok (true, n1) => .ok (c.score s, n1)
    | .ok (false, n1) =>
      abMaxLoop (fun mv a k => ab_min_value c d a β (c.forecast_move s mv) k) β
        (c.get_legal_moves s) ⊥ α n1

end

/-- The root loop of `AlphaBetaPlayer.alphabeta` (lines 406–412): evaluate
each move with the current `alpha` (and the root's `beta`), update
`alpha = max(alpha, v)` after every child, and adopt the move on a strict
`v > best_score`. -/
def abRootLoop (eval : Move → V → ℕ → Res V) :
    List Move → Move → V → V → ℕ → Res Move
  | [], best, _, _, n => .ok (best, n)
  | mv :: ms, best, bs, a, n =>
    match eval mv a n with
    | .error e => .error e
    | .ok (v, n1) =>
      if bs < v then abRootLoop eval ms mv v (max a v) n1
      else abRootLoop eval ms best bs (max a v) n1

/-- `AlphaBetaPlayer.alphabeta(game, depth, alpha, beta)` (lines 319–412).
The Python defaults are `alpha = float("-inf")`, `beta = float("inf")`,
i.e. `⊥` and `V.inf`; callers here pass them explicitly. -/
def AlphaBetaPlayer.alphabeta (c : SearchCtx S) (depth : ℕ) (s : S)
    (α β : V) (n : ℕ) : Res Move :=
  match checkTimer c n with
  | .error e => .error e
  | .ok n1 =>
    if (c.get_legal_moves s).isEmpty then .ok ((-1, -1), n1)
    else
      abRootLoop
        (fun mv a k => ab_min_value c (depth - 1) a β (c.forecast_move s mv) k)
        (c.get_legal_moves s) (-1, -1) ⊥ α n1

/-- The `while 1:` iterative-deepening loop of `AlphaBetaPlayer.get_move`
(lines 303–317), with an explicit `fuel` bound on the number of iterations
modelled (the Python loop is unbounded; `none` means the loop is still
running after `fuel` rounds).  A completed round replaces `best`; a
`SearchTimeout` ends the loop returning the last completed `best`; any other
exception escapes the `try` and propagates out of `get_move`. -/
def AlphaBetaPlayer.getMoveLoop (c : SearchCtx S) (s : S) :
    ℕ → ℕ → Move → ℕ → Option (Except PyExc Move)
  | 0, _, _, _ => none
  | fuel + 1, depth, best, n =>
    match AlphaBetaPlayer.alphabeta c depth s ⊥ V.inf n with
    | .ok (m, n1) => AlphaBetaPlayer.getMoveLoop c s fuel (depth + 1) m n1
    | .error .searchTimeout => some (.ok best)
    | .error e => some (.error e)

/-- `AlphaBetaPlayer.get_move(game, time_left)` (lines 272–317):
`best_move = (-1, -1)`, then the deepening loop from `depth = 1` with the
freshly installed oracle (poll counter `0`). -/
def AlphaBetaPlayer.get_move (c : SearchCtx S) (s : S) (fuel : ℕ) :
    Option (Except PyExc Move) :=
  AlphaBetaPlayer.getMoveLoop c s fuel 1 (-1, -1) 0

/-- The fields stored by `IsolationPlayer.__init__` (lines 118–122).  The
Python constructor performs *no* validation: it stores `search_depth` (an
arbitrary `int`, hence `ℤ` here), the score function and the timeout
threshold unconditionally. -/
structure IsolationPlayerFields (S : Type) where
  search_depth : ℤ
  score : S → V
  TIMER_THRESHOLD : ℚ

/-- `IsolationPlayer.__init__(self, search_depth=3, score_fn=custom_score,
timeout=10.)`: unconditional field assignments, no precondition check. -/
def IsolationPlayer.init (search_depth : ℤ) (score_fn : S → V)
    (timeout : ℚ) : IsolationPlayerFields S :=
  { search_depth := search_depth, score := score_fn,
    TIMER_THRESHOLD := timeout }

/-- The part of the `isolation.Board` interface the evaluation policies
consume: `game.get_legal_moves(player)` for an explicit player and
`game.get_opponent(player)`. -/
structure Board (S P : Type) where
  get_legal_moves_for : S → P → List Move
  get_opponent : S → P → P

/-- `custom_score_2(game, player)` (lines 40–65): aggressive mobility,
`float(my_own_moves - my_opponent_moves * 2)`.  The arithmetic is exact on
integers, so `ℚ` models the float result exactly. -/
def custom_score_2 {P : Type} (b : Board S P) (game : S) (player : P) : ℚ :=
  let my_own_moves : ℚ := ((b.get_legal_moves_for game player).length : ℚ)
  let my_opponent_moves : ℚ :=
    ((b.get_legal_moves_for game (b.get_opponent game player)).length : ℚ)
  my_own_moves - my_opponent_moves * 2

/-- `custom_score_3(game, player)` (lines 68–93): mild mobility,
`float(my_own_moves - (my_opponent_moves * .5))`; `.5` is exactly `1/2`. -/
def custom_score_3 {P : Type} (b : Board S P) (game : S) (player : P) : ℚ :=
  let my_own_moves : ℚ := ((b.get_legal_moves_for game player).length : ℚ)
  let my_opponent_moves : ℚ :=
    ((b.get_legal_moves_for game (b.get_opponent game player)).length : ℚ)
  my_own_moves - my_opponent_moves * (0.5 : ℚ)

/-! ## Specification-side definitions

These are *not* translations of the source: they restate, in pure form, what
the spec says the search computes, and the theorems below relate them to the
embedded source functions. -/

/-- The game-theoretic value of a node, as the spec describes it
(§4.2): the evaluation score of the searching player when the depth is
exhausted or the player to act has no legal moves, otherwise the maximum
(at a MAX node, `maximizing = true`) or minimum (MIN node) of the children's
values one ply deeper.  MAX folds from `-inf`, MIN from `+inf`, as the source
loops do. -/
def minimaxValue (c : SearchCtx S) : Bool → ℕ → S → V
  | _, 0, s => c.score s
  | maximizing, d + 1, s =>
    if (c.get_legal_moves s).isEmpty then c.score s
    else if maximizing then
      ((c.get_legal_moves s).map fun mv =>
        minimaxValue c false d (c.forecast_move s mv)).foldl max ⊥
    else
      ((c.get_legal_moves s).map fun mv =>
        minimaxValue c true d (c.forecast_move s mv)).foldl min V.inf

/-- The value the root compares for a move `mv`: the MIN-node value of the
forecast state, one ply shallower. -/
def rootChildValue (c : SearchCtx S) (depth : ℕ) (s : S) (mv : Move) : V :=
  minimaxValue c false (depth - 1) (c.forecast_move s mv)

/-- Pure form of the root selection loop shared by both searches: walk the
legal moves with a running `(best, best_score)`, adopting a move exactly when
its value strictly exceeds the best score so far. -/
def specRootFold (f : Move → V) : List Move → Move → V → Move
  | [], best, _ => best
  | mv :: ms, best, bs =>
    if bs < f mv then specRootFold f ms mv (f mv)
    else specRootFold f ms best bs

/-- The state of the iterative-deepening controller after `k` fully completed
rounds: the move produced by round `k` (the sentinel for `k = 0`, before any
round) and the oracle poll counter reached; `none` if some round among the
first `k` did not complete.  Round `k` runs `alphabeta` at depth `k` with the
default infinite bounds, so depths run in order `1, 2, 3, …`. -/
def idRounds (c : SearchCtx S) (s : S) : ℕ → Option (Move × ℕ)
  | 0 => some ((-1, -1), 0)
  | k + 1 =>
    match idRounds c s k with
    | none => none
    | some (_, nk) =>
      match AlphaBetaPlayer.alphabeta c (k + 1) s ⊥ V.inf nk with
      | .ok (m, n1) => some (m, n1)
      | .error _ => none

/-- The oracle never reports time below the threshold: no poll can raise
`SearchTimeout`.  The claims about what a *completed* search returns are
stated under this hypothesis. -/
def Ample (c : SearchCtx S) : Prop :=
  ∀ k, ¬ c.time_left k < c.TIMER_THRESHOLD

/-- Fail-soft contract of an alpha-beta node result `r` against the true
minimax value `t` of that node, for the window `(α, β)`: a result below the
window certifies the value is below it, a result above certifies it is above,
and inside the window the result is exact. -/
def ABApprox (α β t r : V) : Prop :=
  (t ≤ α → r ≤ α) ∧ (β ≤ t → β ≤ r) ∧ (α < t → t < β → r = t)

/-! ### Concrete miniature games used to witness the theorems

All use state type `ℕ`.  `ctxTwo`: a two-move root whose children lead to a
one-move subtree and a dead end; ample timer.  `ctxEmpty`: no legal moves at
the root; ample timer.  `ctxEmptyLate`: no legal moves, timer trips from the
second poll on.  `ctxTimeout2`: one root move, timer trips from the third
poll on (so depth 1 completes and depth 2 aborts at entry).  `ctxBot`: two
root moves whose children all evaluate to `-inf`.  `ctxZero`: the timer is
already below threshold at the first poll. -/

def ctxTwo : SearchCtx ℕ where
  get_legal_moves s := if s = 0 then [(0, 0), (0, 1)] else if s = 1 then [(1, 0)] else []
  forecast_move s mv := if s = 0 then (if mv = (0, 0) then 1 else 2) else 3
  score s := V.fin (if s = 1 then 5 else if s = 2 then 7 else if s = 3 then 2 else 0)
  time_left _ := 100
  TIMER_THRESHOLD := 10

def ctxEmpty : SearchCtx ℕ where
  get_legal_moves _ := []
  forecast_move s _ := s
  score _ := V.fin 0
  time_left _ := 100
  TIMER_THRESHOLD := 10

def ctxEmptyLate : SearchCtx ℕ where
  get_legal_moves _ := []
  forecast_move s _ := s
  score _ := V.fin 0
  time_left k := if k = 0 then 100 else 0
  TIMER_THRESHOLD := 10

def ctxTimeout2 : SearchCtx ℕ where
  get_legal_moves s := if s = 0 then [(0, 0)] else []
  forecast_move _ _ := 1
  score _ := V.fin 3
  time_left k := if k < 2 then 100 else 0
  TIMER_THRESHOLD := 10

def ctxBot : SearchCtx ℕ where
  get_legal_moves s := if s = 0 then [(0, 0), (0, 1)] else []
  forecast_move _ _ := 1
  score _ := ⊥
  time_left _ := 100
  TIMER_THRESHOLD := 10

def ctxZero : SearchCtx ℕ where
  get_legal_moves s := if s = 0 then [(0, 0)] else []
  forecast_move _ _ := 1
  score _ := V.fin 0
  time_left _ := 0
  TIMER_THRESHOLD := 10

/-! ## Basic timer lemmas -/

theorem checkTimer_ample {c : SearchCtx S} (amp : Ample c) (n : ℕ) :
    checkTimer c n = .ok (n + 1) := by
  simp [checkTimer, amp n]

theorem checkTimer_timeout {c : SearchCtx S} {n : ℕ}
    (h : c.time_left n < c.TIMER_THRESHOLD) :
    checkTimer c n = .error .searchTimeout := by
  simp [checkTimer, h]

theorem terminal_test_timeout {c : SearchCtx S} {n : ℕ} (d : ℕ) (s : S)
    (h : c.time_left n < c.TIMER_THRESHOLD) :
    terminal_test c d s n = .error .searchTimeout := by
  simp [terminal_test, checkTimer_timeout h]

theorem terminal_test_ample_zero {c : SearchCtx S} (amp : Ample c)
    (s : S) (n : ℕ) : terminal_test c 0 s n = .ok (true, n + 1) := by
  simp [terminal_test, checkTimer_ample amp]

theorem terminal_test_ample_succ {c : SearchCtx S} (amp : Ample c)
    (d : ℕ) (s : S) (n : ℕ) :
    terminal_test c (d + 1) s n = .ok ((c.get_legal_moves s).isEmpty, n + 1) := by
  simp [terminal_test, checkTimer_ample amp]

/-! ## Minimax computes the spec value (under an ample oracle) -/

theorem mmMinLoop_ok {eval : Move → ℕ → Res V} {f : Move → V}
    (he : ∀ mv n, ∃ n1, eval mv n = .ok (f mv, n1)) :
    ∀ (ms : List Move) (v : V) (n : ℕ),
      ∃ n1, mmMinLoop eval ms v n = .ok ((ms.map f).foldl min v, n1) := by
  intro ms
  induction ms with
  | nil => intro v n; exact ⟨n, rfl⟩
  | cons mv ms ih =>
    intro v n
    obtain ⟨n1, h1⟩ := he mv n
    obtain ⟨n2, h2⟩ := ih (min v (f mv)) n1
    exact ⟨n2, by simp [mmMinLoop, h1, h2]⟩

theorem mmMaxLoop_ok {eval : Move → ℕ → Res V} {f : Move → V}
    (he : ∀ mv n, ∃ n1, eval mv n = .ok (f mv, n1)) :
    ∀ (ms : List Move) (v : V) (n : ℕ),
      ∃ n1, mmMaxLoop eval ms v n = .ok ((ms.map f).foldl max v, n1) := by
  intro ms
  induction ms with
  | nil => intro v n; exact ⟨n, rfl⟩
  | cons mv ms ih =>
    intro v n
    obtain ⟨n1, h1⟩ := he mv n
    obtain ⟨n2, h2⟩ := ih (max v (f mv)) n1
    exact ⟨n2, by simp [mmMaxLoop, h1, h2]⟩

theorem mm_values_ok {c : SearchCtx S} (amp : Ample c) :
    ∀ d : ℕ,
      (∀ s n, ∃ n1, mm_min_value c d s n = .ok (minimaxValue c false d s, n1)) ∧
      (∀ s n, ∃ n1, mm_max_value c d s n = .ok (minimaxValue c true d s, n1)) := by
  intro d
  induction d with
  | zero =>
    constructor
    · intro s n
      refine ⟨n + 1, ?_⟩
      simp [mm_min_value, terminal_test_ample_zero amp, minimaxValue]
    · intro s n
      refine ⟨n + 1, ?_⟩
      simp [mm_max_value, terminal_test_ample_zero amp, minimaxValue]
  | succ d ih =>
    constructor
    · intro s n
      by_cases hemp : (c.get_legal_moves s).isEmpty
      · refine ⟨n + 1, ?_⟩
        simp [mm_min_value, terminal_test_ample_succ amp, hemp, minimaxValue]
      · obtain ⟨n1, h1⟩ :=
          mmMinLoop_ok (fun mv k => ih.2 (c.forecast_move s mv) k)
            (c.get_legal_moves s) V.inf (n + 1)
        refine ⟨n1, ?_⟩
        simp [mm_min_value, terminal_test_ample_succ amp, hemp, h1,
          minimaxValue]
    · intro s n
      by_cases hemp : (c.get_legal_moves s).isEmpty
      · refine ⟨n + 1, ?_⟩
        simp [mm_max_value, terminal_test_ample_succ amp, hemp, minimaxValue]
      · obtain ⟨n1, h1⟩ :=
          mmMaxLoop_ok (fun mv k => ih.1 (c.forecast_move s mv) k)
            (c.get_legal_moves s) ⊥ (n + 1)
        refine ⟨n1, ?_⟩
        simp [mm_max_value, terminal_test_ample_succ amp, hemp, h1,
          minimaxValue]

theorem mmRootLoop_ok {eval : Move → ℕ → Res V} {f : Move → V}
    (he : ∀ mv n, ∃ n1, eval mv n = .ok (f mv, n1)) :
    ∀ (ms : List Move) (best : Move) (bs : V) (n : ℕ),
      ∃ n1, mmRootLoop eval ms best bs n = .ok (specRootFold f ms best bs, n1) := by
  intro ms
  induction ms with
  | nil => intro best bs n; exact ⟨n, rfl⟩
  | cons mv ms ih =>
    intro best bs n
    obtain ⟨n1, h1⟩ := he mv n
    by_cases hlt : bs < f mv
    · obtain ⟨n2, h2⟩ := ih mv (f mv) n1
      exact ⟨n2, by simp [mmRootLoop, h1, hlt, h2, specRootFold]⟩
    · obtain ⟨n2, h2⟩ := ih best bs n1
      exact ⟨n2, by simp [mmRootLoop, h1, hlt, h2, specRootFold]⟩

/-- `minimax` on a state with no legal moves: the sentinel after exactly one
oracle poll (only the entry check runs; no recursive call, no forecast). -/
theorem minimax_empty_moves {c : SearchCtx S} {s : S} {n : ℕ} (d : ℕ)
    (hmv : (c.get_legal_moves s).isEmpty)
    (h : ¬ c.time_left n < c.TIMER_THRESHOLD) :
    MinimaxPlayer.minimax c d s n = .ok ((-1, -1), n + 1) := by
  simp [MinimaxPlayer.minimax, checkTimer, h, hmv]

/-- Under an ample oracle, `minimax` on a state with legal moves completes and
returns the pure root fold over the spec values of the root children. -/
theorem minimax_ample_nonempty {c : SearchCtx S} (amp : Ample c) (d : ℕ)
    {s : S} (hne : (c.get_legal_moves s).isEmpty = false) (n : ℕ) :
    ∃ n1, MinimaxPlayer.minimax c d s n =
      .ok (specRootFold (rootChildValue c d s) (c.get_legal_moves s) (-1, -1) ⊥,
        n1) := by
  obtain ⟨n1, h1⟩ :=
    @mmRootLoop_ok (fun mv k => mm_min_value c (d - 1) (c.forecast_move s mv) k)
      (rootChildValue c d s)
      (fun mv k => (mm_values_ok amp (d - 1)).1 (c.forecast_move s mv) k)
      (c.get_legal_moves s) (-1, -1) ⊥ (n + 1)
  refine ⟨n1, ?_⟩
  simp [MinimaxPlayer.minimax, checkTimer_ample amp, hne, h1]

/-- `alphabeta` on a state with no legal moves: the sentinel after exactly one
oracle poll (only the entry check runs; no recursive call, no forecast). -/
theorem alphabeta_empty_moves {c : SearchCtx S} {s : S} {n : ℕ} (d : ℕ)
    (α β : V) (hmv : (c.get_legal_moves s).isEmpty)
    (h : ¬ c.time_left n < c.TIMER_THRESHOLD) :
    AlphaBetaPlayer.alphabeta c d s α β n = .ok ((-1, -1), n + 1) := by
  simp [AlphaBetaPlayer.alphabeta, checkTimer, h, hmv]

/-! ## Timeout propagation: every entry point polls first and aborts -/

theorem mm_min_value_timeout {c : SearchCtx S} {n : ℕ} (d : ℕ) (s : S)
    (h : c.time_left n < c.TIMER_THRESHOLD) :
    mm_min_value c d s n = .error .searchTimeout := by
  cases d <;> simp [mm_min_value, terminal_test_timeout _ _ h]

theorem mm_max_value_timeout {c : SearchCtx S} {n : ℕ} (d : ℕ) (s : S)
    (h : c.time_left n < c.TIMER_THRESHOLD) :
    mm_max_value c d s n = .error .searchTimeout := by
  cases d <;> simp [mm_max_value, terminal_test_timeout _ _ h]

theorem ab_min_value_timeout {c : SearchCtx S} {n : ℕ} (d : ℕ) (α β : V)
    (s : S) (h : c.time_left n < c.TIMER_THRESHOLD) :
    ab_min_value c d α β s n = .error .searchTimeout := by
  cases d <;> simp [ab_min_value, terminal_test_timeout _ _ h]

theorem ab_max_value_timeout {c : SearchCtx S} {n : ℕ} (d : ℕ) (α β : V)
    (s : S) (h : c.time_left n < c.TIMER_THRESHOLD) :
    ab_max_value c d α β s n = .error .searchTimeout := by
  cases d <;> simp [ab_max_value, terminal_test_timeout _ _ h]

theorem minimax_timeout {c : SearchCtx S} {n : ℕ} (d : ℕ) (s : S)
    (h : c.time_left n < c.TIMER_THRESHOLD) :
    MinimaxPlayer.minimax c d s n = .error .searchTimeout := by
  simp [MinimaxPlayer.minimax, checkTimer_timeout h]

theorem alphabeta_timeout {c : SearchCtx S} {n : ℕ} (d : ℕ) (s : S) (α β : V)
    (h : c.time_left n < c.TIMER_THRESHOLD) :
    AlphaBetaPlayer.alphabeta c d s α β n = .error .searchTimeout := by
  simp [AlphaBetaPlayer.alphabeta, checkTimer_timeout h]

/-! ## Order and fold helper lemmas -/

theorem V.inf_eq_top : V.inf = (⊤ : V) := rfl

theorem foldlMin_le_acc : ∀ (l : List V) (a : V), l.foldl min a ≤ a := by
  intro l
  induction l with
  | nil => intro a; exact le_rfl
  | cons x l ih =>
    intro a
    exact le_trans (ih (min a x)) (min_le_left a x)

theorem foldlMin_acc : ∀ (l : List V) (a b : V),
    l.foldl min (min a b) = min a (l.foldl min b) := by
  intro l
  induction l with
  | nil => intro a b; rfl
  | cons x l ih =>
    intro a b
    have : min (min a b) x = min a (min b x) := min_assoc a b x
    simp only [List.foldl_cons, this, ih]

theorem foldlMin_decomp (l : List V) (a : V) :
    l.foldl min a = min a (l.foldl min ⊤) := by
  have h : min a (⊤ : V) = a := min_eq_left le_top
  calc l.foldl min a = l.foldl min (min a ⊤) := by rw [h]
    _ = min a (l.foldl min ⊤) := foldlMin_acc l a ⊤

theorem foldlMax_acc_le : ∀ (l : List V) (a : V), a ≤ l.foldl max a := by
  intro l
  induction l with
  | nil => intro a; exact le_rfl
  | cons x l ih =>
    intro a
    exact le_trans (le_max_left a x) (ih (max a x))

theorem foldlMax_acc : ∀ (l : List V) (a b : V),
    l.foldl max (max a b) = max a (l.foldl max b) := by
  intro l
  induction l with
  | nil => intro a b; rfl
  | cons x l ih =>
    intro a b
    have : max (max a b) x = max a (max b x) := max_assoc a b x
    simp only [List.foldl_cons, this, ih]

theorem foldlMax_decomp (l : List V) (a : V) :
    l.foldl max a = max a (l.foldl max ⊥) := by
  have h : max a (⊥ : V) = a := max_eq_left bot_le
  calc l.foldl max a = l.foldl max (max a ⊥) := by rw [h]
    _ = max a (l.foldl max ⊥) := foldlMax_acc l a ⊥

/-! ## Alpha-beta is a fail-soft approximation of the minimax value -/

theorem abMinLoop_ok {eval : Move → V → ℕ → Res V} {f : Move → V} {α : V}
    (he : ∀ mv b n, ∃ w n1, eval mv b n = .ok (w, n1) ∧ ABApprox α b (f mv) w) :
    ∀ (ms : List Move) (v β : V) (n : ℕ),
      ∃ r n1, abMinLoop eval α ms v β n = .ok (r, n1) ∧ r ≤ v ∧
        ((ms.map f).foldl min v ≤ α → r ≤ α) ∧
        (β ≤ (ms.map f).foldl min v → β ≤ r) ∧
        (α < (ms.map f).foldl min v → (ms.map f).foldl min v < β →
          r = (ms.map f).foldl min v) := by
  intro ms
  induction ms with
  | nil =>
    intro v β n
    exact ⟨v, n, rfl, le_rfl, fun h => h, fun h => h, fun _ _ => rfl⟩
  | cons mv ms ih =>
    intro v β n
    obtain ⟨w, n1, hev, hap⟩ := he mv β n
    simp only [List.map_cons, List.foldl_cons]
    by_cases hcut : min v w ≤ α
    · -- pruning cut: `v <= alpha` after this child, return at once
      refine ⟨min v w, n1, ?_, min_le_left v w, fun _ => hcut, ?_, ?_⟩
      · simp [abMinLoop, hev, hcut]
      · -- if `β ≤ M` then both `v` and this child bound the result below by `β`
        intro hβ
        have hMacc : (ms.map f).foldl min (min v (f mv)) ≤ min v (f mv) :=
          foldlMin_le_acc _ _
        have hβv : β ≤ v := le_trans hβ (le_trans hMacc (min_le_left _ _))
        have hβt1 : β ≤ f mv := le_trans hβ (le_trans hMacc (min_le_right _ _))
        exact le_min hβv (hap.2.1 hβt1)
      · -- an in-window value contradicts the cut
        intro h1 h2
        exfalso
        have hMacc : (ms.map f).foldl min (min v (f mv)) ≤ min v (f mv) :=
          foldlMin_le_acc _ _
        have hαv : α < v :=
          lt_of_lt_of_le h1 (le_trans hMacc (min_le_left _ _))
        have hαt1 : α < f mv :=
          lt_of_lt_of_le h1 (le_trans hMacc (min_le_right _ _))
        rcases lt_or_le (f mv) β with hb | hb
        · have hw : w = f mv := hap.2.2 hαt1 hb
          have : α < min v w := by
            rw [hw]; exact lt_of_lt_of_le h1 hMacc
          exact absurd hcut (not_le.mpr this)
        · have hw : β ≤ w := hap.2.1 hb
          have hαw : α < w := lt_of_lt_of_le (lt_trans h1 h2) hw
          exact absurd hcut (not_le.mpr (lt_min hαv hαw))
    · -- no cut: continue with `v' = min v w`, `β' = min β v'`
      obtain ⟨r, n2, hr, h0, h1, h2, h3⟩ := ih (min v w) (min β (min v w)) n1
      have hloop : abMinLoop eval α (mv :: ms) v β n =
          abMinLoop eval α ms (min v w) (min β (min v w)) n1 := by
        simp [abMinLoop, hev, hcut]
      have hM : (ms.map f).foldl min (min v (f mv)) =
          min (min v (f mv)) ((ms.map f).foldl min ⊤) := foldlMin_decomp _ _
      have hM1 : (ms.map f).foldl min (min v w) =
          min (min v w) ((ms.map f).foldl min ⊤) := foldlMin_decomp _ _
      refine ⟨r, n2, by rw [hloop]; exact hr, le_trans h0 (min_le_left v w),
        ?_, ?_, ?_⟩
      · -- below the window
        intro h
        rw [hM] at h
        rcases min_le_iff.mp h with h' | hT
        · rcases min_le_iff.mp h' with hv | ht1
          · exact absurd hcut (not_not_intro (le_trans (min_le_left v w) hv))
          · exact absurd hcut (not_not_intro
              (le_trans (min_le_right v w) (hap.1 ht1)))
        · apply h1
          rw [hM1]
          exact le_trans (min_le_right _ _) hT
      · -- above the window
        intro h
        rw [hM] at h
        obtain ⟨h', hT⟩ := le_min_iff.mp h
        obtain ⟨hv, ht1⟩ := le_min_iff.mp h'
        have hw : β ≤ w := hap.2.1 ht1
        have hβv' : β ≤ min v w := le_min hv hw
        have hβ2 : min β (min v w) ≤ r := by
          apply h2
          rw [hM1]
          exact le_min (le_trans (min_le_left β _) hβv')
            (le_trans (min_le_left β _) hT)
        exact le_trans (le_min le_rfl hβv') hβ2
      · -- inside the window: exact
        intro hin1 hin2
        have hαparts := lt_min_iff.mp (hM ▸ hin1)
        have hαv : α < v := (lt_min_iff.mp hαparts.1).1
        have hαt1 : α < f mv := (lt_min_iff.mp hαparts.1).2
        have hαT : α < (ms.map f).foldl min ⊤ := hαparts.2
        -- key step: the running value absorbs this child soundly, so the
        -- remaining fold computes the same overall minimum
        have hM1M : (ms.map f).foldl min (min v w) =
            (ms.map f).foldl min (min v (f mv)) := by
          rcases lt_or_le (f mv) β with hb | hb
          · rw [hap.2.2 hαt1 hb]
          · -- `β ≤ f mv`, hence `β ≤ w`; both exceed the overall minimum
            have hw : β ≤ w := hap.2.1 hb
            have hac : (ms.map f).foldl min (min v (f mv)) =
                min (min v ((ms.map f).foldl min ⊤)) (f mv) := by
              rw [hM, min_right_comm]
            have hac1 : (ms.map f).foldl min (min v w) =
                min (min v ((ms.map f).foldl min ⊤)) w := by
              rw [hM1, min_right_comm]
            have hsmall : min v ((ms.map f).foldl min ⊤) ≤ f mv := by
              by_contra hc
              push_neg at hc
              have : (ms.map f).foldl min (min v (f mv)) = f mv := by
                rw [hac]; exact min_eq_right (le_of_lt hc)
              rw [this] at hin2
              exact absurd hb (not_le.mpr hin2)
            have hMeq : (ms.map f).foldl min (min v (f mv)) =
                min v ((ms.map f).foldl min ⊤) := by
              rw [hac]; exact min_eq_left hsmall
            have hsmallw : min v ((ms.map f).foldl min ⊤) ≤ w := by
              calc min v ((ms.map f).foldl min ⊤)
                  = (ms.map f).foldl min (min v (f mv)) := hMeq.symm
                _ ≤ β := le_of_lt hin2
                _ ≤ w := hw
            rw [hac1, hMeq, min_eq_left hsmallw]
        have hMv' : (ms.map f).foldl min (min v (f mv)) ≤ min v w := by
          calc (ms.map f).foldl min (min v (f mv))
              = (ms.map f).foldl min (min v w) := hM1M.symm
            _ ≤ min v w := foldlMin_le_acc _ _
        rcases eq_or_lt_of_le hMv' with heq | hlt
        · -- the running value already equals the overall minimum
          have hr1 : r ≤ (ms.map f).foldl min (min v (f mv)) := heq ▸ h0
          have hβ'le : min β (min v w) ≤ (ms.map f).foldl min (min v w) := by
            rw [hM1M, ← heq]
            exact min_le_right _ _
          have hr2 := h2 hβ'le
          have hβ'eq : min β (min v w) = min v w :=
            min_eq_right (le_of_lt (heq ▸ hin2))
          rw [hβ'eq] at hr2
          exact le_antisymm hr1 (heq ▸ hr2)
        · -- strictly above the running value: the tail computes it exactly
          have := h3 (by rw [hM1M]; exact hin1)
            (by rw [hM1M]; exact lt_min hin2 hlt)
          rw [hM1M] at this
          exact this

theorem abMaxLoop_ok {eval : Move → V → ℕ → Res V} {f : Move → V} {β : V}
    (he : ∀ mv a n, ∃ w n1, eval mv a n = .ok (w, n1) ∧ ABApprox a β (f mv) w) :
    ∀ (ms : List Move) (v α : V) (n : ℕ),
      ∃ r n1, abMaxLoop eval β ms v α n = .ok (r, n1) ∧ v ≤ r ∧
        (β ≤ (ms.map f).foldl max v → β ≤ r) ∧
        ((ms.map f).foldl max v ≤ α → r ≤ α) ∧
        (α < (ms.map f).foldl max v → (ms.map f).foldl max v < β →
          r = (ms.map f).foldl max v) := by
  intro ms
  induction ms with
  | nil =>
    intro v α n
    exact ⟨v, n, rfl, le_rfl, fun h => h, fun h => h, fun _ _ => rfl⟩
  | cons mv ms ih =>
    intro v α n
    obtain ⟨w, n1, hev, hap⟩ := he mv α n
    simp only [List.map_cons, List.foldl_cons]
    by_cases hcut : β ≤ max v w
    · -- pruning cut: `v >= beta` after this child, return at once
      refine ⟨max v w, n1, ?_, le_max_left v w, fun _ => hcut, ?_, ?_⟩
      · simp [abMaxLoop, hev, hcut]
      · intro hα
        have hMacc : max v (f mv) ≤ (ms.map f).foldl max (max v (f mv)) :=
          foldlMax_acc_le _ _
        have hvα : v ≤ α := le_trans (le_trans (le_max_left _ _) hMacc) hα
        have ht1α : f mv ≤ α := le_trans (le_trans (le_max_right _ _) hMacc) hα
        exact max_le hvα (hap.1 ht1α)
      · intro h1 h2
        exfalso
        have hMacc : max v (f mv) ≤ (ms.map f).foldl max (max v (f mv)) :=
          foldlMax_acc_le _ _
        have hvβ : v < β := lt_of_le_of_lt (le_trans (le_max_left _ _) hMacc) h2
        have ht1β : f mv < β :=
          lt_of_le_of_lt (le_trans (le_max_right _ _) hMacc) h2
        rcases lt_or_le α (f mv) with ha | ha
        · have hw : w = f mv := hap.2.2 ha ht1β
          have : max v w < β := by
            rw [hw]; exact lt_of_le_of_lt hMacc h2
          exact absurd hcut (not_le.mpr this)
        · have hw : w ≤ α := hap.1 ha
          have hwβ : w < β := lt_of_le_of_lt hw (lt_trans h1 h2)
          exact absurd hcut (not_le.mpr (max_lt hvβ hwβ))
    · -- no cut: continue with `v' = max v w`, `α' = max α v'`
      obtain ⟨r, n2, hr, h0, h1, h2, h3⟩ := ih (max v w) (max α (max v w)) n1
      have hloop : abMaxLoop eval β (mv :: ms) v α n =
          abMaxLoop eval β ms (max v w) (max α (max v w)) n1 := by
        simp [abMaxLoop, hev, hcut]
      have hM : (ms.map f).foldl max (max v (f mv)) =
          max (max v (f mv)) ((ms.map f).foldl max ⊥) := foldlMax_decomp _ _
      have hM1 : (ms.map f).foldl max (max v w) =
          max (max v w) ((ms.map f).foldl max ⊥) := foldlMax_decomp _ _
      refine ⟨r, n2, by rw [hloop]; exact hr, le_trans (le_max_left v w) h0,
        ?_, ?_, ?_⟩
      · -- above the window
        intro h
        rw [hM] at h
        rcases le_max_iff.mp h with h' | hT
        · rcases le_max_iff.mp h' with hv | ht1
          · exact absurd hcut (not_not_intro (le_trans hv (le_max_left v w)))
          · exact absurd hcut (not_not_intro
              (le_trans (hap.2.1 ht1) (le_max_right v w)))
        · apply h1
          rw [hM1]
          exact le_trans hT (le_max_right _ _)
      · -- below the window
        intro h
        rw [hM] at h
        obtain ⟨h', hT⟩ := max_le_iff.mp h
        obtain ⟨hv, ht1⟩ := max_le_iff.mp h'
        have hw : w ≤ α := hap.1 ht1
        have hv'α : max v w ≤ α := max_le hv hw
        have hr2 : r ≤ max α (max v w) := by
          apply h2
          rw [hM1]
          exact max_le (le_trans hv'α (le_max_left α _))
            (le_trans hT (le_max_left α _))
        exact le_trans hr2 (max_le le_rfl hv'α)
      · -- inside the window: exact
        intro hin1 hin2
        have hβparts := max_lt_iff.mp (hM ▸ hin2)
        have hvβ : v < β := (max_lt_iff.mp hβparts.1).1
        have ht1β : f mv < β := (max_lt_iff.mp hβparts.1).2
        have hTβ : (ms.map f).foldl max ⊥ < β := hβparts.2
        have hM1M : (ms.map f).foldl max (max v w) =
            (ms.map f).foldl max (max v (f mv)) := by
          rcases lt_or_le α (f mv) with ha | ha
          · rw [hap.2.2 ha ht1β]
          · have hw : w ≤ α := hap.1 ha
            have hac : (ms.map f).foldl max (max v (f mv)) =
                max (max v ((ms.map f).foldl max ⊥)) (f mv) := by
              rw [hM, max_assoc, max_comm (f mv), ← max_assoc]
            have hac1 : (ms.map f).foldl max (max v w) =
                max (max v ((ms.map f).foldl max ⊥)) w := by
              rw [hM1, max_assoc, max_comm w, ← max_assoc]
            have hsmall : f mv ≤ max v ((ms.map f).foldl max ⊥) := by
              by_contra hc
              push_neg at hc
              have : (ms.map f).foldl max (max v (f mv)) = f mv := by
                rw [hac]; exact max_eq_right (le_of_lt hc)
              rw [this] at hin1
              exact absurd ha (not_le.mpr hin1)
            have hMeq : (ms.map f).foldl max (max v (f mv)) =
                max v ((ms.map f).foldl max ⊥) := by
              rw [hac]; exact max_eq_left hsmall
            have hsmallw : w ≤ max v ((ms.map f).foldl max ⊥) := by
              calc w ≤ α := hw
                _ ≤ max v ((ms.map f).foldl max ⊥) :=
                    le_of_lt (hMeq ▸ hin1)
            rw [hac1, hMeq, max_eq_left hsmallw]
        have hMv' : max v w ≤ (ms.map f).foldl max (max v (f mv)) := by
          calc max v w ≤ (ms.map f).foldl max (max v w) := foldlMax_acc_le _ _
            _ = (ms.map f).foldl max (max v (f mv)) := hM1M
        rcases eq_or_lt_of_le hMv' with heq | hlt
        · have hr1 : (ms.map f).foldl max (max v (f mv)) ≤ r := heq ▸ h0
          have hα'le : (ms.map f).foldl max (max v w) ≤ max α (max v w) := by
            rw [hM1M, ← heq]
            exact le_max_right _ _
          have hr2 := h2 hα'le
          have hα'eq : max α (max v w) = max v w :=
            max_eq_right (le_of_lt (heq ▸ hin1))
          rw [hα'eq] at hr2
          exact le_antisymm (heq ▸ hr2) hr1
        · have := h3 (by rw [hM1M]; exact max_lt (hM1M ▸ hin1) hlt)
            (by rw [hM1M]; exact hin2)
          rw [hM1M] at this
          exact this

theorem ab_values_ok {c : SearchCtx S} (amp : Ample c) :
    ∀ d : ℕ,
      (∀ α β s n, ∃ r n1, ab_min_value c d α β s n = .ok (r, n1) ∧
        ABApprox α β (minimaxValue c false d s) r) ∧
      (∀ α β s n, ∃ r n1, ab_max_value c d α β s n = .ok (r, n1) ∧
        ABApprox α β (minimaxValue c true d s) r) := by
  intro d
  induction d with
  | zero =>
    constructor
    · intro α β s n
      refine ⟨c.score s, n + 1, ?_, ?_⟩
      · simp [ab_min_value, terminal_test_ample_zero amp]
      · simp only [minimaxValue]
        exact ⟨fun h => h, fun h => h, fun _ _ => rfl⟩
    · intro α β s n
      refine ⟨c.score s, n + 1, ?_, ?_⟩
      · simp [ab_max_value, terminal_test_ample_zero amp]
      · simp only [minimaxValue]
        exact ⟨fun h => h, fun h => h, fun _ _ => rfl⟩
  | succ d ih =>
    constructor
    · intro α β s n
      by_cases hemp : (c.get_legal_moves s).isEmpty
      · refine ⟨c.score s, n + 1, ?_, ?_⟩
        · simp [ab_min_value, terminal_test_ample_succ amp, hemp]
        · have ht : minimaxValue c false (d + 1) s = c.score s := by
            simp [minimaxValue, hemp]
          rw [ht]
          exact ⟨fun h => h, fun h => h, fun _ _ => rfl⟩
      · obtain ⟨r, n1, hr, h0, h1, h2, h3⟩ :=
          abMinLoop_ok (fun mv b k => ih.2 α b (c.forecast_move s mv) k)
            (c.get_legal_moves s) V.inf β (n + 1)
        refine ⟨r, n1, ?_, ?_⟩
        · simp [ab_min_value, terminal_test_ample_succ amp, hemp, hr]
        · have ht : minimaxValue c false (d + 1) s =
              ((c.get_legal_moves s).map fun mv =>
                minimaxValue c true d (c.forecast_move s mv)).foldl min V.inf := by
            simp [minimaxValue, hemp]
          rw [ht]
          exact ⟨h1, h2, h3⟩
    · intro α β s n
      by_cases hemp : (c.get_legal_moves s).isEmpty
      · refine ⟨c.score s, n + 1, ?_, ?_⟩
        · simp [ab_max_value, terminal_test_ample_succ amp, hemp]
        · have ht : minimaxValue c true (d + 1) s = c.score s := by
            simp [minimaxValue, hemp]
          rw [ht]
          exact ⟨fun h => h, fun h => h, fun _ _ => rfl⟩
      · obtain ⟨r, n1, hr, h0, h1, h2, h3⟩ :=
          abMaxLoop_ok (fun mv a k => ih.1 a β (c.forecast_move s mv) k)
            (c.get_legal_moves s) ⊥ α (n + 1)
        refine ⟨r, n1, ?_, ?_⟩
        · simp [ab_max_value, terminal_test_ample_succ amp, hemp, hr]
        · have ht : minimaxValue c true (d + 1) s =
              ((c.get_legal_moves s).map fun mv =>
                minimaxValue c false d (c.forecast_move s mv)).foldl max ⊥ := by
            simp [minimaxValue, hemp]
          rw [ht]
          exact ⟨h2, h1, h3⟩

/-- The alpha-beta root loop, run with `beta = +inf` and `alpha` equal to the
running best score (as `alphabeta` does from its default bounds), selects
exactly the move of the pure root fold over the true child values: a child
searched with `alpha = best_score` returns its exact value whenever that value
beats the best score, and a value certified `≤ alpha` never beats it. -/
theorem abRootLoop_eq_fold {eval : Move → V → ℕ → Res V} {f : Move → V}
    (he : ∀ mv a n, ∃ w n1, eval mv a n = .ok (w, n1) ∧ ABApprox a ⊤ (f mv) w) :
    ∀ (ms : List Move) (best : Move) (bs : V) (n : ℕ),
      ∃ n1, abRootLoop eval ms best bs bs n =
        .ok (specRootFold f ms best bs, n1) := by
  intro ms
  induction ms with
  | nil => intro best bs n; exact ⟨n, rfl⟩
  | cons mv ms ih =>
    intro best bs n
    obtain ⟨w, n1, hev, hap⟩ := he mv bs n
    by_cases hlt : bs < f mv
    · have hw : w = f mv := by
        rcases lt_or_le (f mv) ⊤ with hb | hb
        · exact hap.2.2 hlt hb
        · have hft : f mv = ⊤ := le_antisymm le_top hb
          have hwt : (⊤ : V) ≤ w := hap.2.1 (hft ▸ le_rfl)
          rw [le_antisymm le_top hwt, hft]
      have hbs' : max bs w = f mv := by
        rw [hw]; exact max_eq_right (le_of_lt hlt)
      have hltw : bs < w := hw ▸ hlt
      obtain ⟨n2, h2⟩ := ih mv (f mv) n1
      refine ⟨n2, ?_⟩
      have : abRootLoop eval (mv :: ms) best bs bs n =
          abRootLoop eval ms mv w (max bs w) n1 := by
        simp [abRootLoop, hev, hltw]
      rw [this, hbs', hw, h2]
      simp [specRootFold, hlt]
    · have hw : w ≤ bs := hap.1 (not_lt.mp hlt)
      have hbs' : max bs w = bs := max_eq_left hw
      have hnlt : ¬ bs < w := not_lt.mpr hw
      obtain ⟨n2, h2⟩ := ih best bs n1
      refine ⟨n2, ?_⟩
      have : abRootLoop eval (mv :: ms) best bs bs n =
          abRootLoop eval ms best bs (max bs w) n1 := by
        simp [abRootLoop, hev, hnlt]
      rw [this, hbs', h2]
      simp [specRootFold, hlt]

/-- Under an ample oracle, `alphabeta` from the default infinite bounds on a
state with legal moves completes and returns the same pure root fold as
`minimax`. -/
theorem alphabeta_ample_nonempty {c : SearchCtx S} (amp : Ample c) (d : ℕ)
    {s : S} (hne : (c.get_legal_moves s).isEmpty = false) (n : ℕ) :
    ∃ n1, AlphaBetaPlayer.alphabeta c d s ⊥ V.inf n =
      .ok (specRootFold (rootChildValue c d s) (c.get_legal_moves s) (-1, -1) ⊥,
        n1) := by
  obtain ⟨n1, h1⟩ :=
    @abRootLoop_eq_fold
      (fun mv a k => ab_min_value c (d - 1) a V.inf (c.forecast_move s mv) k)
      (rootChildValue c d s)
      (fun mv a k => by
        obtain ⟨w, n1, hw, hap⟩ :=
          (ab_values_ok amp (d - 1)).1 a V.inf (c.forecast_move s mv) k
        exact ⟨w, n1, hw, V.inf_eq_top ▸ hap⟩)
      (c.get_legal_moves s) (-1, -1) ⊥ (n + 1)
  refine ⟨n1, ?_⟩
  simp [AlphaBetaPlayer.alphabeta, checkTimer_ample amp, hne, h1]

/-- If no move's value strictly beats the running best score, the root fold
keeps the incoming best move (the strict `>` adoption test never fires). -/
theorem specRootFold_no_beat {f : Move → V} :
    ∀ (ms : List Move) (best : Move) (bs : V),
      (∀ mv ∈ ms, ¬ bs < f mv) → specRootFold f ms best bs = best := by
  intro ms
  induction ms with
  | nil => intro best bs _; rfl
  | cons mv ms ih =>
    intro best bs h
    have hlt : ¬ bs < f mv := h mv (List.mem_cons_self mv ms)
    simp only [specRootFold, if_neg hlt]
    exact ih best bs fun mv' hmv' => h mv' (List.mem_cons_of_mem mv hmv')

/-- First-argmax characterization of the root fold: whenever some move's value
strictly beats the incoming best score, the fold returns the move at the first
index attaining the maximum value — every move's value is `≤` its value and
every strictly earlier move's value is strictly below it. -/
theorem specRootFold_char {f : Move → V} :
    ∀ (ms : List Move) (best : Move) (bs : V),
      (∃ mv ∈ ms, bs < f mv) →
      ∃ i, ∃ hi : i < ms.length,
        specRootFold f ms best bs = ms.get ⟨i, hi⟩ ∧
        bs < f (ms.get ⟨i, hi⟩) ∧
        (∀ mv ∈ ms, f mv ≤ f (ms.get ⟨i, hi⟩)) ∧
        (∀ j, ∀ hj : j < ms.length, j < i →
          f (ms.get ⟨j, hj⟩) < f (ms.get ⟨i, hi⟩)) := by
  intro ms
  induction ms with
  | nil => intro best bs h; simp at h
  | cons mv ms ih =>
    intro best bs h
    by_cases hlt : bs < f mv
    · by_cases hbeat : ∃ mv' ∈ ms, f mv < f mv'
      · obtain ⟨i, hi, heq, hgt, hall, hearlier⟩ := ih mv (f mv) hbeat
        refine ⟨i + 1, Nat.succ_lt_succ hi, ?_, ?_, ?_, ?_⟩
        · simpa [specRootFold, if_pos hlt, List.get_cons_succ] using heq
        · simpa [List.get_cons_succ] using lt_trans hlt hgt
        · intro mv' hmv'
          rcases List.mem_cons.mp hmv' with rfl | hmem
          · simpa [List.get_cons_succ] using le_of_lt hgt
          · simpa [List.get_cons_succ] using hall mv' hmem
        · intro j hj hji
          cases j with
          | zero => simpa [List.get_cons_succ] using hgt
          | succ j =>
            have hj' : j < ms.length := Nat.lt_of_succ_lt_succ hj
            have hji' : j < i := Nat.lt_of_succ_lt_succ hji
            simpa [List.get_cons_succ] using hearlier j hj' hji'
      · push_neg at hbeat
        refine ⟨0, Nat.succ_pos _, ?_, ?_, ?_, ?_⟩
        · simp only [specRootFold, if_pos hlt, List.get_cons_zero]
          exact specRootFold_no_beat ms mv (f mv) fun mv' hmv' =>
            not_lt.mpr (hbeat mv' hmv')
        · simpa using hlt
        · intro mv' hmv'
          rcases List.mem_cons.mp hmv' with rfl | hmem
          · simp
          · simpa using hbeat mv' hmem
        · intro j hj hji
          exact absurd hji (Nat.not_lt_zero j)
    · have hmem : ∃ mv' ∈ ms, bs < f mv' := by
        rcases h with ⟨mv', hmv', hgt⟩
        rcases List.mem_cons.mp hmv' with rfl | hmem
        · exact absurd hgt hlt
        · exact ⟨mv', hmem, hgt⟩
      obtain ⟨i, hi, heq, hgt, hall, hearlier⟩ := ih best bs hmem
      refine ⟨i + 1, Nat.succ_lt_succ hi, ?_, ?_, ?_, ?_⟩
      · simpa [specRootFold, if_neg hlt, List.get_cons_succ] using heq
      · simpa [List.get_cons_succ] using hgt
      · intro mv' hmv'
        rcases List.mem_cons.mp hmv' with rfl | hmem'
        · simpa [List.get_cons_succ] using
            le_of_lt (lt_of_le_of_lt (not_lt.mp hlt) hgt)
        · simpa [List.get_cons_succ] using hall mv' hmem'
      · intro j hj hji
        cases j with
        | zero =>
          simpa [List.get_cons_succ] using lt_of_le_of_lt (not_lt.mp hlt) hgt
        | succ j =>
          have hj' : j < ms.length := Nat.lt_of_succ_lt_succ hj
          have hji' : j < i := Nat.lt_of_succ_lt_succ hji
          simpa [List.get_cons_succ] using hearlier j hj' hji'

/-! ## The iterative-deepening controller -/

/-- Unwinding of the deepening loop: started just after `K` completed rounds
(best move `b`, counter `nk`), if it returns a move `m` within its fuel then
there is some `K' ≥ K` such that rounds `K+1, …, K'` all completed, `m` is
exactly the move of round `K'` (or the incoming `b` for `K' = K`), and round
`K' + 1` aborted with `SearchTimeout`. -/
theorem getMoveLoop_last_completed {c : SearchCtx S} {s : S} :
    ∀ (fuel K : ℕ) (b : Move) (nk : ℕ) (m : Move),
      idRounds c s K = some (b, nk) →
      AlphaBetaPlayer.getMoveLoop c s fuel (K + 1) b nk = some (.ok m) →
      ∃ K' nk', K ≤ K' ∧ idRounds c s K' = some (m, nk') ∧
        AlphaBetaPlayer.alphabeta c (K' + 1) s ⊥ V.inf nk' =
          .error .searchTimeout := by
  intro fuel
  induction fuel with
  | zero =>
    intro K b nk m _ h
    simp [AlphaBetaPlayer.getMoveLoop] at h
  | succ fuel ih =>
    intro K b nk m hK h
    cases hab : AlphaBetaPlayer.alphabeta c (K + 1) s ⊥ V.inf nk with
    | error e =>
      cases e with
      | searchTimeout =>
        have hb : b = m := by
          simpa [AlphaBetaPlayer.getMoveLoop, hab] using h
        exact ⟨K, nk, le_rfl, hb ▸ hK, hab⟩
      | other t =>
        exfalso
        simp [AlphaBetaPlayer.getMoveLoop, hab] at h
    | ok p =>
      obtain ⟨m1, n1⟩ := p
      have hK1 : idRounds c s (K + 1) = some (m1, n1) := by
        simp [idRounds, hK, hab]
      have h1 : AlphaBetaPlayer.getMoveLoop c s fuel (K + 2) m1 n1 =
          some (.ok m) := by
        simpa [AlphaBetaPlayer.getMoveLoop, hab] using h
      obtain ⟨K', nk', hle, hr, he⟩ := ih (K + 1) m1 n1 m hK1 h1
      exact ⟨K', nk', le_trans (Nat.le_succ K) hle, hr, he⟩

/-- With no legal moves at the root, every deepening round completes with the
sentinel after a single poll, so the loop keeps deepening and stops only when
the oracle finally drops below the threshold — at which point the sentinel is
returned. -/
theorem getMoveLoop_empty_terminates {c : SearchCtx S} {s : S}
    (hmv : (c.get_legal_moves s).isEmpty) :
    ∀ (fuel depth n : ℕ),
      (∃ k, n ≤ k ∧ k < n + fuel ∧ c.time_left k < c.TIMER_THRESHOLD) →
      AlphaBetaPlayer.getMoveLoop c s fuel depth (-1, -1) n =
        some (.ok (-1, -1)) := by
  intro fuel
  induction fuel with
  | zero =>
    intro depth n hk
    obtain ⟨k, hk1, hk2, _⟩ := hk
    omega
  | succ fuel ih =>
    intro depth n hk
    by_cases h : c.time_left n < c.TIMER_THRESHOLD
    · simp [AlphaBetaPlayer.getMoveLoop, alphabeta_timeout depth s ⊥ V.inf h]
    · have hab := alphabeta_empty_moves depth ⊥ V.inf hmv h
      rw [show AlphaBetaPlayer.getMoveLoop c s (fuel + 1) depth (-1, -1) n =
          AlphaBetaPlayer.getMoveLoop c s fuel (depth + 1) (-1, -1) (n + 1) by
        simp [AlphaBetaPlayer.getMoveLoop, hab]]
      apply ih
      obtain ⟨k, hk1, hk2, hk3⟩ := hk
      have hkn : k ≠ n := fun he => h (he ▸ hk3)
      exact ⟨k, by omega, by omega, hk3⟩

/-! ## The claims -/

/-- C1: for every game state and every depth ≥ 1, alpha-beta search invoked
with the default infinite initial bounds (`alpha = -inf`, `beta = +inf`)
returns exactly the same move as fixed-depth minimax at that same state and
depth.  Both searches are run under an oracle that never trips the timeout
(`Ample`), which is the regime in which "returns a move" is well defined;
both complete and their moves coincide. -/
theorem C1_alphabeta_equals_minimax {c : SearchCtx S} (d : ℕ) (s : S) (n : ℕ)
    (hd : 1 ≤ d) (amp : Ample c) :
    ∃ m n1 n2, MinimaxPlayer.minimax c d s n = .ok (m, n1) ∧
      AlphaBetaPlayer.alphabeta c d s ⊥ V.inf n = .ok (m, n2) := by
  by_cases hemp : (c.get_legal_moves s).isEmpty
  · exact ⟨(-1, -1), n + 1, n + 1, minimax_empty_moves d hemp (amp n),
      alphabeta_empty_moves d ⊥ V.inf hemp (amp n)⟩
  · have hne : (c.get_legal_moves s).isEmpty = false := by
      simpa using hemp
    obtain ⟨n1, h1⟩ := minimax_ample_nonempty amp d hne n
    obtain ⟨n2, h2⟩ := alphabeta_ample_nonempty amp d hne n
    exact ⟨_, n1, n2, h1, h2⟩

theorem C1_alphabeta_equals_minimax_witness :
    ∃ m n1 n2, MinimaxPlayer.minimax ctxTwo 2 0 0 = .ok (m, n1) ∧
      AlphaBetaPlayer.alphabeta ctxTwo 2 0 ⊥ V.inf 0 = .ok (m, n2) :=
  C1_alphabeta_equals_minimax 2 0 0 (by decide) (fun _ => by norm_num [ctxTwo])

/-- C2: for every depth ≥ 1 and every state in which the player to act has no
legal moves, both `minimax` and `alphabeta` return the sentinel `(-1, -1)`
without making any recursive call.  "Without recursing" is witnessed by the
returned poll counter `n + 1`: every recursive entry (`terminal_test` at a
child) polls the oracle, so finishing after exactly one poll — the entry
check — proves no child was ever forecast or evaluated.  The only hypothesis
on the oracle is that the single entry poll does not trip. -/
theorem C2_no_moves_returns_sentinel_without_recursion {c : SearchCtx S}
    {s : S} {n : ℕ} (d : ℕ) (α β : V) (hd : 1 ≤ d)
    (hmv : (c.get_legal_moves s).isEmpty)
    (h : ¬ c.time_left n < c.TIMER_THRESHOLD) :
    MinimaxPlayer.minimax c d s n = .ok ((-1, -1), n + 1) ∧
    AlphaBetaPlayer.alphabeta c d s α β n = .ok ((-1, -1), n + 1) :=
  ⟨minimax_empty_moves d hmv h, alphabeta_empty_moves d α β hmv h⟩

theorem C2_no_moves_returns_sentinel_without_recursion_witness :
    MinimaxPlayer.minimax ctxEmpty 1 0 0 = .ok ((-1, -1), 1) ∧
    AlphaBetaPlayer.alphabeta ctxEmpty 1 0 ⊥ V.inf 0 = .ok ((-1, -1), 1) :=
  C2_no_moves_returns_sentinel_without_recursion 1 ⊥ V.inf (by decide)
    (by decide) (by decide)

/-- C3: whenever the iterative-deepening controller returns a move `m`, there
is a `K` such that rounds `1, …, K` (run at strictly increasing depths, as
`idRounds` iterates them) all completed, `m` is exactly the move produced by
round `K`, round `K + 1` raised `SearchTimeout` (so an aborted round never
contributes its partial result — the `Except` error carries no move at all),
and if no round ever completed (`K = 0`) then `m` is the sentinel. -/
theorem C3_returns_last_completed_round {c : SearchCtx S} {s : S} {fuel : ℕ}
    {m : Move} (h : AlphaBetaPlayer.get_move c s fuel = some (.ok m)) :
    ∃ K nk, idRounds c s K = some (m, nk) ∧
      AlphaBetaPlayer.alphabeta c (K + 1) s ⊥ V.inf nk =
        .error .searchTimeout ∧
      (K = 0 → m = (-1, -1)) := by
  obtain ⟨K, nk, _, hr, he⟩ :=
    getMoveLoop_last_completed fuel 0 (-1, -1) 0 m (by simp [idRounds]) h
  refine ⟨K, nk, hr, he, ?_⟩
  intro hK
  subst hK
  simp [idRounds] at hr
  exact hr.1.symm

theorem C3_returns_last_completed_round_witness :
    ∃ K nk, idRounds ctxTimeout2 0 K = some ((0, 0), nk) ∧
      AlphaBetaPlayer.alphabeta ctxTimeout2 (K + 1) 0 ⊥ V.inf nk =
        .error .searchTimeout ∧
      (K = 0 → ((0, 0) : Move) = (-1, -1)) :=
  @C3_returns_last_completed_round ℕ ctxTimeout2 0 5 (0, 0) (by decide)

/-- C4 counterexample: the claim says that with no legal moves at the root
"the depth-1 round itself returns the sentinel and the loop then stops,
rather than continuing to deeper rounds".  On `ctxEmpty` (no legal moves,
oracle always ample) the first three rounds all complete with the sentinel
(`idRounds … 3` succeeds, i.e. the loop DID continue to depths 2 and 3), and
after three full rounds the loop is still running (`none` = fuel exhausted
without returning).  If the claim were true the loop would have stopped
within one round. -/
theorem C4_counterexample :
    idRounds ctxEmpty 0 3 = some ((-1, -1), 3) ∧
    AlphaBetaPlayer.get_move ctxEmpty 0 3 = none := by decide

/-- C4 (amended): the iterative-deepening loop terminates only when a round
raises a timeout abort.  When the root state has no legal moves, every round
returns the sentinel after a single poll and the loop keeps deepening; once
the oracle drops below the threshold (within the modelled fuel), the loop
stops and the sentinel is returned. -/
theorem C4_terminates_only_on_timeout {c : SearchCtx S} {s : S} (fuel : ℕ)
    (hmv : (c.get_legal_moves s).isEmpty)
    (h : ∃ k, k < fuel ∧ c.time_left k < c.TIMER_THRESHOLD) :
    AlphaBetaPlayer.get_move c s fuel = some (.ok (-1, -1)) := by
  unfold AlphaBetaPlayer.get_move
  apply getMoveLoop_empty_terminates hmv fuel 1 0
  obtain ⟨k, hk1, hk2⟩ := h
  exact ⟨k, Nat.zero_le k, by omega, hk2⟩

theorem C4_terminates_only_on_timeout_witness :
    AlphaBetaPlayer.get_move ctxEmptyLate 0 5 = some (.ok (-1, -1)) :=
  C4_terminates_only_on_timeout 5 (by decide) ⟨1, by decide, by decide⟩

/-- C5 counterexample: the claim says minimax "returns the first move in the
root's legal-move enumeration order whose depth-limited minimax value is
strictly greater than that of every earlier move".  On `ctxBot` (ample
oracle) every root child's value is `-inf`, so the first move `(0, 0)`
satisfies that description vacuously (no earlier moves, maximal value) — yet
the code returns the sentinel `(-1, -1)`, which is not even a legal move:
the root loop adopts a move only on a strict `>` against a best score
initialised to `-inf`, which can never fire. -/
theorem C5_counterexample :
    Ample ctxBot ∧
    ctxBot.get_legal_moves 0 = [(0, 0), (0, 1)] ∧
    rootChildValue ctxBot 1 0 (0, 0) = ⊥ ∧
    rootChildValue ctxBot 1 0 (0, 1) = ⊥ ∧
    MinimaxPlayer.minimax ctxBot 1 0 0 = .ok ((-1, -1), 3) ∧
    ((-1, -1) : Move) ∉ ctxBot.get_legal_moves 0 :=
  ⟨fun _ => by norm_num [ctxBot], by decide, by decide, by decide, by decide,
    by decide⟩

/-- C5 (amended): provided the oracle never times out and at least one root
child's depth-limited minimax value (`rootChildValue`, defined by the spec's
value recursion `minimaxValue`: score of the searching player at depth 0 or
when the player to act is stuck, max of children at MAX nodes, min at MIN
nodes) exceeds `-inf`, `MinimaxPlayer.minimax` returns the first move in
enumeration order attaining the maximal value: every move's value is `≤` the
returned move's value and every strictly earlier move's value is strictly
below it (strict `>` tie-break — later equal-scoring moves never replace an
earlier one).  When every child's value is `-inf` the sentinel is returned
instead (see C10). -/
theorem C5_first_argmax_when_above_bot {c : SearchCtx S} (d : ℕ) (s : S)
    (n : ℕ) (hd : 1 ≤ d) (amp : Ample c)
    (hbeat : ∃ mv ∈ c.get_legal_moves s, ⊥ < rootChildValue c d s mv) :
    ∃ n1, ∃ i, ∃ hi : i < (c.get_legal_moves s).length,
      MinimaxPlayer.minimax c d s n =
        .ok ((c.get_legal_moves s).get ⟨i, hi⟩, n1) ∧
      (∀ mv ∈ c.get_legal_moves s, rootChildValue c d s mv ≤
        rootChildValue c d s ((c.get_legal_moves s).get ⟨i, hi⟩)) ∧
      (∀ j, ∀ hj : j < (c.get_legal_moves s).length, j < i →
        rootChildValue c d s ((c.get_legal_moves s).get ⟨j, hj⟩) <
          rootChildValue c d s ((c.get_legal_moves s).get ⟨i, hi⟩)) := by
  have hne : (c.get_legal_moves s).isEmpty = false := by
    obtain ⟨mv, hmv, _⟩ := hbeat
    cases hls : c.get_legal_moves s with
    | nil => rw [hls] at hmv; simp at hmv
    | cons a l => rfl
  obtain ⟨n1, h1⟩ := minimax_ample_nonempty amp d hne n
  obtain ⟨i, hi, heq, _, hall, hearly⟩ :=
    specRootFold_char (c.get_legal_moves s) (-1, -1) ⊥ hbeat
  exact ⟨n1, i, hi, heq ▸ h1, hall, hearly⟩

theorem C5_first_argmax_when_above_bot_witness :
    ∃ n1, ∃ i, ∃ hi : i < (ctxTwo.get_legal_moves 0).length,
      MinimaxPlayer.minimax ctxTwo 2 0 0 =
        .ok ((ctxTwo.get_legal_moves 0).get ⟨i, hi⟩, n1) ∧
      (∀ mv ∈ ctxTwo.get_legal_moves 0, rootChildValue ctxTwo 2 0 mv ≤
        rootChildValue ctxTwo 2 0 ((ctxTwo.get_legal_moves 0).get ⟨i, hi⟩)) ∧
      (∀ j, ∀ hj : j < (ctxTwo.get_legal_moves 0).length, j < i →
        rootChildValue ctxTwo 2 0 ((ctxTwo.get_legal_moves 0).get ⟨j, hj⟩) <
          rootChildValue ctxTwo 2 0 ((ctxTwo.get_legal_moves 0).get ⟨i, hi⟩)) :=
  C5_first_argmax_when_above_bot 2 0 0 (by decide)
    (fun _ => by norm_num [ctxTwo]) ⟨(0, 0), by decide, by decide⟩

/-- C6: in every recursive search call — the value functions of both searches,
the shared `terminal_test`, and the top-level entries — the time-left oracle
is queried before any other work, and if the reported time is below the
threshold a `SearchTimeout` abort is raised immediately: the call evaluates
to `.error .searchTimeout`, so (by the `Except` structure of the embedding)
no child state is forecast and no evaluation is computed at or after that
entry. -/
theorem C6_polls_before_work_and_aborts {c : SearchCtx S} {n : ℕ}
    (h : c.time_left n < c.TIMER_THRESHOLD) :
    ∀ (d : ℕ) (s : S) (α β : V),
      terminal_test c d s n = .error .searchTimeout ∧
      mm_min_value c d s n = .error .searchTimeout ∧
      mm_max_value c d s n = .error .searchTimeout ∧
      ab_min_value c d α β s n = .error .searchTimeout ∧
      ab_max_value c d α β s n = .error .searchTimeout ∧
      MinimaxPlayer.minimax c d s n = .error .searchTimeout ∧
      AlphaBetaPlayer.alphabeta c d s α β n = .error .searchTimeout :=
  fun d s α β =>
    ⟨terminal_test_timeout d s h, mm_min_value_timeout d s h,
      mm_max_value_timeout d s h, ab_min_value_timeout d α β s h,
      ab_max_value_timeout d α β s h, minimax_timeout d s h,
      alphabeta_timeout d s α β h⟩

theorem C6_polls_before_work_and_aborts_witness :
    terminal_test ctxZero 3 0 0 = .error .searchTimeout ∧
    mm_min_value ctxZero 3 0 0 = .error .searchTimeout ∧
    mm_max_value ctxZero 3 0 0 = .error .searchTimeout ∧
    ab_min_value ctxZero 3 ⊥ V.inf 0 0 = .error .searchTimeout ∧
    ab_max_value ctxZero 3 ⊥ V.inf 0 0 = .error .searchTimeout ∧
    MinimaxPlayer.minimax ctxZero 3 0 0 = .error .searchTimeout ∧
    AlphaBetaPlayer.alphabeta ctxZero 3 0 ⊥ V.inf 0 = .error .searchTimeout :=
  C6_polls_before_work_and_aborts (by decide) 3 0 ⊥ V.inf

/-- C7: `MinimaxPlayer.get_move` returns the sentinel whenever the underlying
`minimax` aborts with `SearchTimeout`; the boundary handler
(`handleSearchTimeout`, the embedded `try/except SearchTimeout` of lines
159–168) absorbs exactly `SearchTimeout` — it can never let one propagate to
the caller — while any other exception class passes through unchanged. -/
theorem C7_timeout_absorbed_at_get_move_boundary :
    (∀ (c : SearchCtx S) (d : ℕ) (s : S),
      MinimaxPlayer.minimax c d s 0 = .error .searchTimeout →
      MinimaxPlayer.get_move c d s = .ok (-1, -1)) ∧
    (∀ (b : Move) (r : Res Move),
      handleSearchTimeout b r ≠ .error .searchTimeout) ∧
    (∀ (b : Move) (t : ℕ),
      handleSearchTimeout b (.error (.other t)) = .error (.other t)) := by
  refine ⟨?_, ?_, ?_⟩
  · intro c d s h
    simp [MinimaxPlayer.get_move, h, handleSearchTimeout]
  · intro b r
    cases r with
    | ok p => simp [handleSearchTimeout]
    | error e => cases e <;> simp [handleSearchTimeout]
  · intro b t
    rfl

theorem C7_timeout_absorbed_at_get_move_boundary_witness :
    MinimaxPlayer.get_move ctxZero 3 0 = .ok (-1, -1) :=
  C7_timeout_absorbed_at_get_move_boundary.1 ctxZero 3 0 (by decide)

/-- C8 counterexample: the claim says a non-positive configured depth "is
rejected before the first node is expanded".  In fact `IsolationPlayer.init`
performs no validation — constructing a player with `search_depth = -1`
succeeds and stores `-1` verbatim — and invoking `minimax` with a
non-positive depth (`0` here; every Python `int ≤ 0` takes exactly the same
branches, since the only test is `depth <= 0`) runs a complete search on
`ctxTwo`: the final poll counter `3` shows the entry check plus two child
evaluations ran, and the returned `(0, 1)` is the best-scoring move — nothing
was rejected, before or during the recursion. -/
theorem C8_counterexample :
    (IsolationPlayer.init (-1) (fun _ : ℕ => V.fin 0) 10).search_depth = -1 ∧
    MinimaxPlayer.minimax ctxTwo 0 0 0 = .ok ((0, 1), 3) := by
  exact ⟨rfl, by decide⟩

/-- C8 (amended): an invalid (non-positive) search depth is not a checked
precondition: the constructor stores any integer depth unchanged with no
validation, and invoking the search with a non-positive depth silently
behaves exactly like depth 1 (the root's children are evaluated immediately
as terminal either way) rather than failing fast or being discovered
mid-recursion. -/
theorem C8_no_validation_depth_zero_runs :
    (∀ (score_fn : ℕ → V) (t : ℚ),
      (IsolationPlayer.init (-1) score_fn t).search_depth = -1) ∧
    (∀ (c : SearchCtx S) (s : S) (n : ℕ),
      MinimaxPlayer.minimax c 0 s n = MinimaxPlayer.minimax c 1 s n) :=
  ⟨fun _ _ => rfl, fun _ _ _ => rfl⟩

/-- C9: the aggressive-mobility policy `custom_score_2` computes exactly
`own_legal_move_count − 2·opponent_legal_move_count`, and the mild-mobility
policy `custom_score_3` exactly `own − 0.5·opponent`, where the counts are the
lengths of `get_legal_moves(player)` and `get_legal_moves(get_opponent
(player))`.  (The embedded definitions follow the source's literal shapes
`own − opp * 2` and `own − opp * .5`; this theorem equates them with the
spec's formulas.) -/
theorem C9_custom_score_formulas {P : Type} (b : Board S P) (game : S)
    (player : P) :
    custom_score_2 b game player =
      ((b.get_legal_moves_for game player).length : ℚ) -
        2 * ((b.get_legal_moves_for game (b.get_opponent game player)).length : ℚ) ∧
    custom_score_3 b game player =
      ((b.get_legal_moves_for game player).length : ℚ) -
        (1 / 2) *
          ((b.get_legal_moves_for game (b.get_opponent game player)).length : ℚ) := by
  constructor
  · simp only [custom_score_2]
    ring
  · simp only [custom_score_3]
    have h05 : (0.5 : ℚ) = 1 / 2 := by norm_num
    rw [h05]
    ring

/-- C10: when the root has legal moves but every root child's search value is
`-inf` (and the oracle never times out, so the searches complete), both
`minimax` and `alphabeta` (from the default infinite bounds) return the
sentinel `(-1, -1)` rather than the first legal move: the best score starts at
`-inf` and a move is adopted only under a strict `>`, which `-inf > -inf`
never satisfies. -/
theorem C10_all_neg_inf_children_yield_sentinel {c : SearchCtx S} (d : ℕ)
    (s : S) (n : ℕ) (hd : 1 ≤ d) (amp : Ample c)
    (hne : (c.get_legal_moves s).isEmpty = false)
    (hbot : ∀ mv ∈ c.get_legal_moves s, rootChildValue c d s mv = ⊥) :
    (∃ n1, MinimaxPlayer.minimax c d s n = .ok ((-1, -1), n1)) ∧
    (∃ n2, AlphaBetaPlayer.alphabeta c d s ⊥ V.inf n = .ok ((-1, -1), n2)) := by
  have hfold : specRootFold (rootChildValue c d s) (c.get_legal_moves s)
      (-1, -1) ⊥ = (-1, -1) :=
    specRootFold_no_beat _ _ _ fun mv hmv => by
      rw [hbot mv hmv]; exact lt_irrefl ⊥
  constructor
  · obtain ⟨n1, h1⟩ := minimax_ample_nonempty amp d hne n
    exact ⟨n1, hfold ▸ h1⟩
  · obtain ⟨n2, h2⟩ := alphabeta_ample_nonempty amp d hne n
    exact ⟨n2, hfold ▸ h2⟩

theorem C10_all_neg_inf_children_yield_sentinel_witness :
    (∃ n1, MinimaxPlayer.minimax ctxBot 1 0 0 = .ok ((-1, -1), n1)) ∧
    (∃ n2, AlphaBetaPlayer.alphabeta ctxBot 1 0 ⊥ V.inf 0 = .ok ((-1, -1), n2)) :=
  C10_all_neg_inf_children_yield_sentinel 1 0 0 (by decide)
    (fun _ => by norm_num [ctxBot]) (by decide) (by decide)
